import Mathlib

/-!
Verification of the chess position / move-generation library.

This file gives a shallow embedding, in Lean, of the parts of the Rust
sources needed to settle the claims: the geometry primitives
(color, piece, square, castle rights), 64-bit bitboards (as `Nat` with
bit operations), the move codec, the board structure with its
pin/checker bookkeeping (`update_pin_info`), the sanity check
(`is_sane`), null moves, the hashes, square-occupancy queries
(`piece_on`), the en-passant legality test of the move generator
(`legal_ep_move`), and the UCI move parser.

Pieces of the repository whose source files are not available
(the attack-table accessors of magic.rs, square.rs, the Zobrist key
blob, MoveGen::has_legals) are modelled from the specification; each
such definition carries a doc comment starting with
"Modelled from the spec:".  Everything else is translated directly
from the Rust sources.
-/

namespace Chess

/-- The 64-bit mask: bitboards and hashes live below 2^64. -/
def MASK64 : Nat := 2 ^ 64 - 1

/-! ## Color (src/color.rs) -/

/-- The two colors, discriminants 0 and 1 (src/color.rs). -/
inductive Color where
  | white
  | black
deriving DecidableEq, Repr

/-- Color::into_index: `self as usize` (src/color.rs). -/
def Color.into_index : Color → Nat
  | .white => 0
  | .black => 1

/-- Negation of a color (impl Not for Color, src/color.rs). -/
def Color.not : Color → Color
  | .white => .black
  | .black => .white

/-- The From Color for bool conversion: White maps to true (src/color.rs). -/
def Color.toBool : Color → Bool
  | .white => true
  | .black => false

/-- Color::to_my_backrank as a rank index: First = 0 for White, Eighth = 7 for Black. -/
def Color.toMyBackrank : Color → Nat
  | .white => 0
  | .black => 7

/-- Color::to_second_rank as a rank index (src/color.rs). -/
def Color.toSecondRank : Color → Nat
  | .white => 1
  | .black => 6

/-- Color::to_fourth_rank as a rank index (src/color.rs). -/
def Color.toFourthRank : Color → Nat
  | .white => 3
  | .black => 4

/-- Color::to_seventh_rank as a rank index (src/color.rs). -/
def Color.toSeventhRank : Color → Nat
  | .white => 6
  | .black => 1

/-! ## Piece (src/piece.rs) -/

/-- The six piece kinds.  In src/piece.rs the enum carries explicit
discriminants: Pawn = 1, Knight = 2, Bishop = 3, Rook = 4, Queen = 5,
King = 6. -/
inductive Piece where
  | pawn
  | knight
  | bishop
  | rook
  | queen
  | king
deriving DecidableEq, Repr, Fintype

/-- The explicit Rust discriminant of each piece (Pawn = 1 … King = 6). -/
def Piece.discriminant : Piece → Nat
  | .pawn => 1
  | .knight => 2
  | .bishop => 3
  | .rook => 4
  | .queen => 5
  | .king => 6

/-- Piece::into_index: `self as usize`, i.e. the raw discriminant
(src/piece.rs lines 37-40). -/
def Piece.into_index (p : Piece) : Nat :=
  p.discriminant

/-- NUM_PIECES = 6 (src/piece.rs): the length of every per-piece array,
in particular of Board::pieces. -/
def NUM_PIECES : Nat := 6

/-- ALL_PIECES in source order (src/piece.rs). -/
def ALL_PIECES : List Piece :=
  [.pawn, .knight, .bishop, .rook, .queen, .king]

/-! ## The move codec (src/chess_move.rs)

Squares are integers 0…63 packed as rank*8 + file; we use plain `Nat`
for them throughout. -/

/-- ChessMove: source square, destination square, optional promotion
(src/chess_move.rs). -/
structure ChessMove where
  source : Nat
  dest : Nat
  promotion : Option Piece
deriving DecidableEq, Repr

/-- ChessMove::encode (src/chess_move.rs lines 410-423): source in bits
15..10, dest in bits 9..4, and for a promotion the value
`promotion as u16 + 1` (the raw discriminant plus one) in bits 3..0. -/
def ChessMove.encode (m : ChessMove) : Nat :=
  (m.source <<< 10) ||| (m.dest <<< 4) |||
    (match m.promotion with
     | some p => p.discriminant + 1
     | none => 0)

/-- ChessMove::decode (src/chess_move.rs lines 428-446): source from bits
15..10, dest from bits 9..4, and promotion from bits 3..0 with
1 ↦ Pawn, 2 ↦ Knight, 3 ↦ Bishop, 4 ↦ Rook, 5 ↦ Queen, 6 ↦ King,
anything else ↦ None. -/
def ChessMove.decode (coded : Nat) : ChessMove :=
  { source := (coded &&& 0xFC00) >>> 10
    dest := (coded &&& 0x03F0) >>> 4
    promotion :=
      match coded &&& 0xF with
      | 1 => some .pawn
      | 2 => some .knight
      | 3 => some .bishop
      | 4 => some .rook
      | 5 => some .queen
      | 6 => some .king
      | _ => none }

/-! ## Bitboards (src/bitboard.rs)

A bitboard is a 64-bit word; bit `s` means square `s` is in the set.
We represent it as a `Nat` kept below 2^64 and use `Nat` bit
operations. -/

/-- BitBoard::from_square: the singleton bitboard of a square
(src/bitboard.rs line 288). -/
def fromSquare (s : Nat) : Nat := 1 <<< s

/-- Build a bitboard from a predicate on the 64 square indices:
the OR over all squares below `n` that satisfy the predicate. -/
def bbOfPredAux (p : Nat → Bool) : Nat → Nat
  | 0 => 0
  | n + 1 => bbOfPredAux p n ||| (if p n then 1 <<< n else 0)

/-- Build a bitboard from a predicate on the 64 square indices. -/
def bbOfPred (p : Nat → Bool) : Nat := bbOfPredAux p 64

/-- BitBoard::popcnt restricted to the 64 board bits
(src/bitboard.rs line 309; `u64::count_ones`). -/
def popcnt (b : Nat) : Nat :=
  ((List.range 64).filter (fun i => b.testBit i)).length

/-- BitBoard::to_square: the least-significant set square
(`u64::trailing_zeros`, src/bitboard.rs line 303); 64 when the board is
empty, exactly as in Rust. -/
def toSquare (b : Nat) : Nat :=
  match ((List.range 64).filter (fun i => b.testBit i)).head? with
  | some i => i
  | none => 64

/-- The squares of a bitboard in ascending order: the order produced by
the BitBoard iterator (least-significant-square first,
src/bitboard.rs lines 327-340). -/
def bbSquares (b : Nat) : List Nat :=
  (List.range 64).filter (fun i => b.testBit i)

/-! ## Square geometry

Squares are packed as rank*8 + file (spec §3). -/

/-- Square rank index: `s / 8`. -/
def rankOf (s : Nat) : Nat := s / 8

/-- Square file index: `s % 8`. -/
def fileOf (s : Nat) : Nat := s % 8

/-- Square::make_square: rank*8 + file. -/
def makeSquare (r f : Nat) : Nat := r * 8 + f

/-- Modelled from the spec: square.rs is not among the available
sources.  Square::uforward(color) is the wrapping directional helper
(spec §3): one rank up for White, one rank down for Black, wrapping
modulo 8, file unchanged. -/
def uforward (c : Color) (s : Nat) : Nat :=
  match c with
  | .white => makeSquare ((rankOf s + 1) % 8) (fileOf s)
  | .black => makeSquare ((rankOf s + 7) % 8) (fileOf s)

/-- Modelled from the spec: Square::ubackward(color), the wrapping
one-rank move away from the mover's forward direction (spec §3). -/
def ubackward (c : Color) (s : Nat) : Nat :=
  match c with
  | .white => makeSquare ((rankOf s + 7) % 8) (fileOf s)
  | .black => makeSquare ((rankOf s + 1) % 8) (fileOf s)

/-! ## Attack oracle

The accessors live in magic.rs which is not among the available
sources; the ray tables, however, are generated by
src/gen_tables/rays.rs which is available and is followed exactly.
The remaining tables are modelled from the spec (§4.2). -/

/-- Predicate of the bishop ray table: destination squares on a common
diagonal with the source, source excluded
(src/gen_tables/rays.rs, gen_bishop_rays). -/
def bishopRayPred (src dest : Nat) : Bool :=
  ((rankOf src : Int) - rankOf dest).natAbs = ((fileOf src : Int) - fileOf dest).natAbs
    && src ≠ dest

/-- Predicate of the rook ray table: destination squares on the same
rank or file as the source, source excluded
(src/gen_tables/rays.rs, gen_rook_rays). -/
def rookRayPred (src dest : Nat) : Bool :=
  (rankOf src = rankOf dest || fileOf src = fileOf dest) && src ≠ dest

/-- get_bishop_rays: the full unobstructed bishop ray mask of a square
(src/gen_tables/rays.rs). -/
def bishopRays (src : Nat) : Nat := bbOfPred (bishopRayPred src)

/-- get_rook_rays: the full unobstructed rook ray mask of a square
(src/gen_tables/rays.rs). -/
def rookRays (src : Nat) : Nat := bbOfPred (rookRayPred src)

/-- Two squares on a shared diagonal or anti-diagonal (or equal). -/
def diagPred (a b : Nat) : Bool :=
  ((rankOf a : Int) - rankOf b).natAbs = ((fileOf a : Int) - fileOf b).natAbs

/-- Whether z lies strictly between x and y (in either order). -/
def openBetween (x y z : Nat) : Bool :=
  (x < z && z < y) || (y < z && z < x)

/-- Membership predicate of the `between` table: `t` lies strictly
between `a` and `b` on a shared rank, file or diagonal.  On a shared
rank (resp. file) this pins t to the same rank (resp. file) with its
file (resp. rank) strictly inside the endpoints; on a shared diagonal
the two diagonal constraints together with the strict bounding box pin
t to the open segment: a square diagonal to both endpoints strictly
inside their bounding box lies on their shared diagonal. -/
def betweenPred (a b t : Nat) : Bool :=
  a ≠ b &&
    ((rankOf a = rankOf b && rankOf a = rankOf t &&
        openBetween (fileOf a) (fileOf b) (fileOf t)) ||
     (fileOf a = fileOf b && fileOf a = fileOf t &&
        openBetween (rankOf a) (rankOf b) (rankOf t)) ||
     (diagPred a b && diagPred a t && diagPred t b &&
        openBetween (rankOf a) (rankOf b) (rankOf t) &&
        openBetween (fileOf a) (fileOf b) (fileOf t)))

/-- Modelled from the spec: the `between` table generator
(src/gen_tables/between.rs) is not among the available sources.
between(a,b) is the set of open squares strictly between two collinear
squares on a shared rank/file/diagonal, and EMPTY otherwise (spec §4.2). -/
def between (a b : Nat) : Nat := bbOfPred (betweenPred a b)

/-- Knight-move relation between two squares. -/
def knightPred (src dest : Nat) : Bool :=
  let dr := ((rankOf src : Int) - rankOf dest).natAbs
  let df := ((fileOf src : Int) - fileOf dest).natAbs
  (dr = 1 && df = 2) || (dr = 2 && df = 1)

/-- Modelled from the spec: the knight table generator
(src/gen_tables/knights.rs) is not among the available sources.
get_knight_moves(s) is the precomputed set of knight-move targets of s
(spec §4.2). -/
def knightMoves (src : Nat) : Nat := bbOfPred (knightPred src)

/-- King-move relation between two squares (Chebyshev distance 1). -/
def kingPred (src dest : Nat) : Bool :=
  let dr := ((rankOf src : Int) - rankOf dest).natAbs
  let df := ((fileOf src : Int) - fileOf dest).natAbs
  dr ≤ 1 && df ≤ 1 && src ≠ dest

/-- Modelled from the spec: the king table generator
(src/gen_tables/king.rs) is not among the available sources.
get_king_moves(s) is the precomputed set of king-move targets of s
(spec §4.2). -/
def kingMoves (src : Nat) : Nat := bbOfPred (kingPred src)

/-- Diagonal pawn-attack relation: `dest` is attacked by a pawn of
color `c` standing on `src`. -/
def pawnAttackPred (c : Color) (src dest : Nat) : Bool :=
  let df := ((fileOf src : Int) - fileOf dest).natAbs
  df = 1 &&
    (match c with
     | .white => (rankOf dest : Int) - rankOf src = 1
     | .black => (rankOf src : Int) - rankOf dest = 1)

/-- Modelled from the spec: the pawn table generator
(src/gen_tables/pawns.rs) is not among the available sources.
get_pawn_attacks(s, color, targets) returns the two diagonal attack
targets of a color-pawn on s, masked by the supplied targets bitboard
(spec §4.2). -/
def pawnAttacks (src : Nat) (c : Color) (targets : Nat) : Nat :=
  bbOfPred (pawnAttackPred c src) &&& targets

/-- Modelled from the spec: rank mask table (spec §4.2):
get_rank(r) is the bitboard of the 8 squares of rank index r. -/
def rankBB (r : Nat) : Nat := bbOfPred (fun s => rankOf s = r)

/-- Modelled from the spec: file mask table (spec §4.2):
get_file(f) is the bitboard of the 8 squares of file index f. -/
def fileBB (f : Nat) : Nat := bbOfPred (fun s => fileOf s = f)

/-- Modelled from the spec: adjacent-files table (spec §4.2):
get_adjacent_files(f) is the bitboard of the squares whose file is at
distance exactly one from f. -/
def adjacentFiles (f : Nat) : Nat :=
  bbOfPred (fun s => ((fileOf s : Int) - f).natAbs = 1)

/-- Sliding-attack membership: `dest` is reached from `src` along a ray
admitted by `rayPred` and no occupied square lies strictly between. -/
def sliderPred (rayPred : Nat → Nat → Bool) (src occ dest : Nat) : Bool :=
  rayPred src dest && (between src dest &&& occ) == 0

/-- Modelled from the spec: get_rook_moves(s, B) returns the rook
attacks from s under occupancy B, stopping at and including the first
blocker in each ray (spec §4.2 contract; implemented in the sources by
magic lookup in magic.rs, which is not available). -/
def rookMoves (src occ : Nat) : Nat := bbOfPred (sliderPred rookRayPred src occ)

/-- Modelled from the spec: get_bishop_moves(s, B), the bishop analogue
of get_rook_moves (spec §4.2 contract). -/
def bishopMoves (src occ : Nat) : Nat := bbOfPred (sliderPred bishopRayPred src occ)

/-! ## Castle rights (src/castle_rights.rs) -/

/-- CastleRights: two independent bits (src/castle_rights.rs). -/
inductive CastleRights where
  | noRights
  | kingSide
  | queenSide
  | both
deriving DecidableEq, Repr

/-- CastleRights::into_index: the raw discriminant 0b00/0b01/0b10/0b11
(src/castle_rights.rs). -/
def CastleRights.into_index : CastleRights → Nat
  | .noRights => 0
  | .kingSide => 1
  | .queenSide => 2
  | .both => 3

/-- CastleRights::from_index (src/castle_rights.rs lines 130-138). -/
def CastleRights.from_index (i : Nat) : CastleRights :=
  match i % 4 with
  | 0 => .noRights
  | 1 => .kingSide
  | 2 => .queenSide
  | _ => .both

/-- CastleRights::has_kingside (src/castle_rights.rs). -/
def CastleRights.hasKingside (cr : CastleRights) : Bool :=
  cr.into_index &&& 1 == 1

/-- CastleRights::has_queenside (src/castle_rights.rs). -/
def CastleRights.hasQueenside (cr : CastleRights) : Bool :=
  cr.into_index &&& 2 == 2

/-- CastleRights::unmoved_rooks (src/castle_rights.rs lines 141-153):
the corner squares whose rooks must not have moved. -/
def CastleRights.unmovedRooks (cr : CastleRights) (c : Color) : Nat :=
  let br := c.toMyBackrank
  match cr with
  | .noRights => 0
  | .kingSide => fromSquare (makeSquare br 7)
  | .queenSide => fromSquare (makeSquare br 0)
  | .both => fromSquare (makeSquare br 0) ^^^ fromSquare (makeSquare br 7)

/-! ## The board (src/board.rs)

The Rust struct stores `pieces: [BitBoard; NUM_PIECES]` indexed through
`Piece::into_index`; claim C1 records that this index path is out of
bounds for the king, so the embedding keeps the logical content of the
array as a total function from piece kinds to bitboards (and likewise
for the two per-color arrays). -/

/-- The Board structure (src/board.rs lines 27-37). -/
structure Board where
  pieces : Piece → Nat
  color_combined : Color → Nat
  combined : Nat
  side_to_move : Color
  castle_rights : Color → CastleRights
  pinned : Nat
  checkers : Nat
  hash : Nat
  en_passant : Option Nat

/-- Board::pieces_with_color (src/board.rs lines 260-262). -/
def piecesWithColor (b : Board) (p : Piece) (c : Color) : Nat :=
  b.pieces p &&& b.color_combined c

/-- Board::king_square (src/board.rs lines 275-277). -/
def kingSquare (b : Board) (c : Color) : Nat :=
  toSquare (piecesWithColor b .king c)

/-- Board::update_pin_info (src/board.rs lines 1108-1136): recompute
`pinned` and `checkers` from scratch for the side to move. -/
def updatePinInfo (b : Board) : Board :=
  let ksq := kingSquare b b.side_to_move
  let pinners := b.color_combined b.side_to_move.not &&&
      ((bishopRays ksq &&& (b.pieces .bishop ||| b.pieces .queen)) |||
        (rookRays ksq &&& (b.pieces .rook ||| b.pieces .queen)))
  let pc := (bbSquares pinners).foldl
      (fun (pc : Nat × Nat) sq =>
        let btw := between sq ksq &&& b.combined
        if btw = 0 then (pc.1, pc.2 ^^^ fromSquare sq)
        else if popcnt btw = 1 then (pc.1 ^^^ btw, pc.2)
        else pc)
      (0, 0)
  let checkers1 := pc.2 ^^^
      (knightMoves ksq &&& b.color_combined b.side_to_move.not &&& b.pieces .knight)
  let checkers2 := checkers1 ^^^
      pawnAttacks ksq b.side_to_move (b.color_combined b.side_to_move.not &&& b.pieces .pawn)
  { b with pinned := pc.1, checkers := checkers2 }

/-- Board::null_move (src/board.rs lines 601-611): None when in check,
otherwise the same board with the side to move toggled, the en-passant
square erased, and pin information recomputed. -/
def nullMove (b : Board) : Option Board :=
  if b.checkers ≠ 0 then
    none
  else
    some (updatePinInfo
      { b with side_to_move := b.side_to_move.not, en_passant := none })

/-- Board::is_sane (src/board.rs lines 628-714), translated check for
check; the Rust early returns become one conjunction. -/
def isSane (b : Board) : Bool :=
  (ALL_PIECES.all fun x => ALL_PIECES.all fun y =>
      if x ≠ y then b.pieces x &&& b.pieces y == 0 else true) &&
  (b.color_combined .white &&& b.color_combined .black == 0) &&
  (ALL_PIECES.foldl (fun cur next => cur ||| b.pieces next) 0 == b.combined) &&
  (popcnt (piecesWithColor b .king .white) == 1) &&
  (popcnt (piecesWithColor b .king .black) == 1) &&
  (match b.en_passant with
   | some x =>
      !(b.pieces .pawn &&& b.color_combined b.side_to_move.not &&& fromSquare x == 0)
   | none => true) &&
  ((updatePinInfo { b with side_to_move := b.side_to_move.not }).checkers == 0) &&
  ([Color.white, Color.black].all fun color =>
    let cr := b.castle_rights color
    (cr.unmovedRooks color &&& b.pieces .rook &&& b.color_combined color
        == cr.unmovedRooks color) &&
    (cr == CastleRights.noRights ||
      piecesWithColor b .king color == (fileBB 4 &&& rankBB color.toMyBackrank))) &&
  (kingMoves (kingSquare b .white) &&& b.pieces .king == 0)

/-- Board::piece_on_unchecked (src/board.rs lines 785-812): the
branch-reduced occupancy classifier; defined for every square, as in
the source (whose undefinedness on empty squares is the caller's
problem). -/
def pieceOnUnchecked (b : Board) (square : Nat) : Piece :=
  let opp := fromSquare square
  if (b.pieces .pawn ^^^ b.pieces .knight ^^^ b.pieces .bishop) &&& opp ≠ 0 then
    if b.pieces .pawn &&& opp ≠ 0 then .pawn
    else if b.pieces .knight &&& opp ≠ 0 then .knight
    else .bishop
  else if b.pieces .rook &&& opp ≠ 0 then .rook
  else if b.pieces .queen &&& opp ≠ 0 then .queen
  else .king

/-- Board::piece_on (src/board.rs lines 764-771). -/
def pieceOn (b : Board) (square : Nat) : Option Piece :=
  let opp := fromSquare square
  if b.combined &&& opp = 0 then none
  else some (pieceOnUnchecked b square)

/-! ## Zobrist keys (src/zobrist.rs)

The key blob is produced at build time by src/gen_tables/zobrist.rs
which is not among the available sources. -/

/-- Modelled from the spec: a splitmix-style mixer standing in for the
generated pseudo-random 64-bit key material (spec §4 and §6: fixed
pseudo-random 64-bit tables whose relative values do not matter). -/
def zmix (i : Nat) : Nat :=
  let z := ((i + 1) * 0x9E3779B97F4A7C15) % 2 ^ 64
  let z := ((z ^^^ (z >>> 30)) * 0xBF58476D1CE4E5B9) % 2 ^ 64
  (z ^^^ (z >>> 27)) % 2 ^ 64

/-- Modelled from the spec: Zobrist::piece, one fixed pseudo-random
64-bit key per (piece, square, color) (spec §2 item 4, §4.3.3). -/
def zobristPiece (p : Piece) (sq : Nat) (c : Color) : Nat :=
  zmix (c.into_index * 1024 + p.into_index * 128 + sq)

/-- Modelled from the spec: the SIDE_TO_MOVE key of the generated blob. -/
def SIDE_TO_MOVE : Nat := zmix 31337

/-- Zobrist::color (src/zobrist.rs lines 45-51): the side-to-move key
for Black, zero for White (`if (!color).into()` with the White ↦ true
conversion of src/color.rs). -/
def zobristColor (c : Color) : Nat :=
  if c.not.toBool then SIDE_TO_MOVE else 0

/-- Board::get_pawn_hash (src/board.rs lines 732-743).  Note the
source folds the black pawns with `Color::White` keys as well. -/
def getPawnHash (b : Board) : Nat :=
  let white_pawns := piecesWithColor b .pawn .white
  let black_pawns := piecesWithColor b .pawn .black
  zobristColor b.side_to_move
    ^^^ (bbSquares white_pawns).foldl (fun acc sq => acc ^^^ zobristPiece .pawn sq .white) 0
    ^^^ (bbSquares black_pawns).foldl (fun acc sq => acc ^^^ zobristPiece .pawn sq .white) 0

/-- Board::get_pawn_king_hash (src/board.rs lines 747-751). -/
def getPawnKingHash (b : Board) : Nat :=
  getPawnHash b
    ^^^ zobristPiece .king (kingSquare b .white) .white
    ^^^ zobristPiece .king (kingSquare b .black) .black

/-! ## Game status (src/board.rs lines 194-204) -/

/-- BoardStatus (src/board.rs lines 43-47). -/
inductive BoardStatus where
  | ongoing
  | stalemate
  | checkmate
deriving DecidableEq, Repr

/-- Board::status (src/board.rs lines 194-204), parameterized by the
legal-move existence oracle: `MoveGen::has_legals` lives in
src/movegen/mod.rs which is not among the available sources, and by
spec §4.4 it returns true exactly when the legal generator emits at
least one move. -/
def statusWith (hasLegals : Board → Bool) (b : Board) : BoardStatus :=
  if !hasLegals b then
    if b.checkers = 0 then .stalemate else .checkmate
  else .ongoing

/-! ## En-passant legality (src/movegen/piece_type.rs) -/

/-- PawnType::legal_ep_move (src/movegen/piece_type.rs lines 121-147):
check an en-passant capture for a discovered slider attack on the own
king after XOR-ing out the captured pawn and the source and XOR-ing in
the destination.  The source unwraps the en-passant square; callers
reach this only with it set, so the none branch is arbitrary. -/
def legalEpMove (b : Board) (source dest : Nat) : Bool :=
  match b.en_passant with
  | none => false
  | some ep =>
    let combined := b.combined ^^^ fromSquare ep ^^^ fromSquare source ^^^ fromSquare dest
    let ksq := kingSquare b b.side_to_move
    let rooks := (b.pieces .rook ||| b.pieces .queen) &&& b.color_combined b.side_to_move.not
    if (rookRays ksq &&& rooks) ≠ 0 && (rookMoves ksq combined &&& rooks) ≠ 0 then
      false
    else
      let bishops :=
        (b.pieces .bishop ||| b.pieces .queen) &&& b.color_combined b.side_to_move.not
      if (bishopRays ksq &&& bishops) ≠ 0 && (bishopMoves ksq combined &&& bishops) ≠ 0 then
        false
      else
        true

/-- The candidate-source mask of the en-passant loop of
PawnType::legals (src/movegen/piece_type.rs lines 216-232): friendly
pawns on the rank of the en-passant square and an adjacent file. -/
def epSourceMask (b : Board) (ep : Nat) : Nat :=
  rankBB (rankOf ep) &&& adjacentFiles (fileOf ep) &&&
    (b.pieces .pawn &&& b.color_combined b.side_to_move)

/-- Whether PawnType::legals emits the en-passant capture from `src`
(src/movegen/piece_type.rs lines 216-232): `src` ranges over the
candidate mask and the capture to `ep.uforward(color)` is pushed iff
legal_ep_move accepts it. -/
def epEmitted (b : Board) (src : Nat) : Bool :=
  match b.en_passant with
  | none => false
  | some ep =>
    (epSourceMask b ep).testBit src &&
      legalEpMove b src (uforward b.side_to_move ep)

/-! ## The UCI move parser (src/chess_move.rs lines 495-515)

Strings are modelled as lists of characters; the claims concern ASCII
inputs, on which the byte slices of the Rust code coincide with
character slices. -/

/-- File letter of an algebraic square. -/
def fileOfChar (c : Char) : Option Nat :=
  if c = 'a' then some 0
  else if c = 'b' then some 1
  else if c = 'c' then some 2
  else if c = 'd' then some 3
  else if c = 'e' then some 4
  else if c = 'f' then some 5
  else if c = 'g' then some 6
  else if c = 'h' then some 7
  else none

/-- Rank digit of an algebraic square. -/
def rankOfChar (c : Char) : Option Nat :=
  if c = '1' then some 0
  else if c = '2' then some 1
  else if c = '3' then some 2
  else if c = '4' then some 3
  else if c = '5' then some 4
  else if c = '6' then some 5
  else if c = '7' then some 6
  else if c = '8' then some 7
  else none

/-- Modelled from the spec: Square::from_str (square.rs is not among
the available sources): parse an algebraic square [a-h][1-8] from the
first two characters, failing on shorter input or unmatched characters
(spec §6/§7; cf. the InvalidInfo variants of src/error.rs). -/
def squareFromStr (l : List Char) : Option Nat :=
  match l with
  | f :: r :: _ =>
    match fileOfChar f, rankOfChar r with
    | some fi, some ri => some (makeSquare ri fi)
    | _, _ => none
  | _ => none

/-- ChessMove::from_str (src/chess_move.rs lines 498-514): squares from
the slices 0..2 and 2..4, and, only when the length is exactly 5, a
promotion piece from the last character. -/
def uciFromStr (l : List Char) : Option ChessMove :=
  match squareFromStr (l.take 2) with
  | none => none
  | some source =>
    if l.length < 4 then none
    else
      match squareFromStr ((l.drop 2).take 2) with
      | none => none
      | some dest =>
        if l.length = 5 then
          match l.getLast? with
          | some c =>
            if c = 'q' then some ⟨source, dest, some .queen⟩
            else if c = 'r' then some ⟨source, dest, some .rook⟩
            else if c = 'n' then some ⟨source, dest, some .knight⟩
            else if c = 'b' then some ⟨source, dest, some .bishop⟩
            else none
          | none => none
        else
          some ⟨source, dest, none⟩

/-- Whether a character is a file letter a…h. -/
def isFileChar (c : Char) : Bool := (fileOfChar c).isSome

/-- Whether a character is a rank digit 1…8. -/
def isRankChar (c : Char) : Bool := (rankOfChar c).isSome

/-- Whether a character is a UCI promotion letter q, r, b or n. -/
def isPromoChar (c : Char) : Bool :=
  c = 'q' || c = 'r' || c = 'b' || c = 'n'

/-- The claimed input language of the UCI parser, written from the
spec's words (§6): strings of length 4 or 5 matching
[a-h][1-8][a-h][1-8][qrbn]?. -/
def matchesUci (l : List Char) : Bool :=
  match l with
  | [a, b, c, d] => isFileChar a && isRankChar b && isFileChar c && isRankChar d
  | [a, b, c, d, e] =>
    isFileChar a && isRankChar b && isFileChar c && isRankChar d && isPromoChar e
  | _ => false

/-! ## Claim-side formulas and concrete boards -/

/-- Board::new (src/board.rs lines 110-122): the completely empty
board. -/
def boardNew : Board :=
  { pieces := fun _ => 0
    color_combined := fun _ => 0
    combined := 0
    side_to_move := .white
    castle_rights := fun _ => .noRights
    pinned := 0
    checkers := 0
    hash := 0
    en_passant := none }

/-- The per-board en-passant property asserted by claim C6: when the
en-passant square is set it holds a pawn of the side not to move, on
rank index 3 (the 4th rank) for a white pawn and rank index 4 (the 5th
rank) for a black pawn. -/
def c6ClaimProp (b : Board) : Bool :=
  match b.en_passant with
  | none => true
  | some s =>
    (piecesWithColor b .pawn b.side_to_move.not).testBit s &&
      (match b.side_to_move.not with
       | .white => rankOf s == 3
       | .black => rankOf s == 4)

/-- A concrete board: white king e1, black king e8, black pawn a3, White
to move, en-passant square a3.  It passes is_sane (which never looks at
the rank of the en-passant pawn) yet the pawn is on the 3rd rank. -/
def c6board : Board :=
  { pieces := fun p =>
      match p with
      | .pawn => fromSquare 16
      | .king => fromSquare 4 ||| fromSquare 60
      | _ => 0
    color_combined := fun c =>
      match c with
      | .white => fromSquare 4
      | .black => fromSquare 16 ||| fromSquare 60
    combined := fromSquare 4 ||| fromSquare 16 ||| fromSquare 60
    side_to_move := .white
    castle_rights := fun _ => .noRights
    pinned := 0
    checkers := 0
    hash := 0
    en_passant := some 16 }

/-- The pawn-hash formula asserted by claim C7: every pawn keyed with
its own color, plus the side-to-move key. -/
def pawnHashClaimed (b : Board) : Nat :=
  zobristColor b.side_to_move
    ^^^ (bbSquares (piecesWithColor b .pawn .white)).foldl
          (fun acc sq => acc ^^^ zobristPiece .pawn sq .white) 0
    ^^^ (bbSquares (piecesWithColor b .pawn .black)).foldl
          (fun acc sq => acc ^^^ zobristPiece .pawn sq .black) 0

/-- The amended pawn-hash formula: the XOR over every pawn of either
color of the key for (Pawn, square, White) — the source folds black
pawns with the white keys too — plus the side-to-move key. -/
def pawnHashAmended (b : Board) : Nat :=
  zobristColor b.side_to_move
    ^^^ (bbSquares (b.pieces .pawn &&&
            (b.color_combined .white ||| b.color_combined .black))).foldl
          (fun acc sq => acc ^^^ zobristPiece .pawn sq .white) 0

/-- A concrete board for claim C7: black pawn d5, white pawn e4, kings
e1 and e8, White to move. -/
def c7board : Board :=
  { pieces := fun p =>
      match p with
      | .pawn => fromSquare 35 ||| fromSquare 28
      | .king => fromSquare 4 ||| fromSquare 60
      | _ => 0
    color_combined := fun c =>
      match c with
      | .white => fromSquare 4 ||| fromSquare 28
      | .black => fromSquare 35 ||| fromSquare 60
    combined := fromSquare 4 ||| fromSquare 28 ||| fromSquare 35 ||| fromSquare 60
    side_to_move := .white
    castle_rights := fun _ => .noRights
    pinned := 0
    checkers := 0
    hash := 0
    en_passant := none }

/-- The occupancy named by claim C9: the combined occupancy with the
en-passant pawn square and the capturing pawn's source removed and the
capture destination added. -/
def removeAdd (occ e s d : Nat) : Nat :=
  bbOfPred fun t => (occ.testBit t && t ≠ e && t ≠ s) || t = d

/-- A concrete board for claim C9: white pawn f5, black pawn e5 that
just double-pushed (en-passant square e5), kings e1 and e8, White to
move; the en-passant capture f5xe6 is legal. -/
def c9board : Board :=
  { pieces := fun p =>
      match p with
      | .pawn => fromSquare 36 ||| fromSquare 37
      | .king => fromSquare 4 ||| fromSquare 60
      | _ => 0
    color_combined := fun c =>
      match c with
      | .white => fromSquare 4 ||| fromSquare 37
      | .black => fromSquare 36 ||| fromSquare 60
    combined := fromSquare 4 ||| fromSquare 36 ||| fromSquare 37 ||| fromSquare 60
    side_to_move := .white
    castle_rights := fun _ => .noRights
    pinned := 0
    checkers := 0
    hash := 0
    en_passant := some 36 }

/-- The acceptance language actually implemented by the UCI parser
(claim C8 amended): at least four characters, the first four matching
[a-h][1-8][a-h][1-8], and when the length is exactly five the last
character is a promotion letter; any longer tail is accepted and
ignored. -/
def uciAccepted (l : List Char) : Bool :=
  match l with
  | a :: b :: c :: d :: rest =>
    isFileChar a && isRankChar b && isFileChar c && isRankChar d &&
      (match rest with
       | [e] => isPromoChar e
       | _ => true)
  | _ => false

/-! ## Theorems -/

theorem testBit_bbOfPredAux (p : Nat → Bool) (n i : Nat) :
    (bbOfPredAux p n).testBit i = (decide (i < n) && p i) := by
  induction n with
  | zero => simp [bbOfPredAux, Nat.zero_testBit]
  | succ n ih =>
    simp only [bbOfPredAux, Nat.testBit_or, ih]
    by_cases hp : p n
    · simp only [hp, if_true]
      rw [Nat.shiftLeft_eq, one_mul, Nat.testBit_two_pow]
      by_cases hin : i = n
      · subst hin; simp [hp]
      · have : decide (n = i) = false := by simp [Ne.symm hin]
        rw [this]
        by_cases hlt : i < n
        · simp [hlt, Nat.lt_succ_of_lt hlt]
        · have : ¬ i < n + 1 := by omega
          simp [hlt, this]
    · simp only [hp, if_false, Nat.zero_testBit]
      by_cases hlt : i < n
      · simp [hlt, Nat.lt_succ_of_lt hlt]
      · by_cases hin : i = n
        · subst hin; simp [hp]
        · have h1 : ¬ i < n + 1 := by omega
          simp [hlt, h1]

theorem testBit_bbOfPred (p : Nat → Bool) (i : Nat) :
    (bbOfPred p).testBit i = (decide (i < 64) && p i) :=
  testBit_bbOfPredAux p 64 i

/-! ## Claims C1 and C2 -/

/-- C1: the claim states that `Piece::into_index` always lies in 0..5 so
that indexing the 6-entry arrays (Board::pieces, the Zobrist piece
table) is in bounds, in particular for Piece::King.  On the source this
fails: the discriminants are 1…6, `into_index` returns the raw
discriminant, and `Piece::King.into_index() = 6` is out of bounds for a
`[BitBoard; NUM_PIECES]` with NUM_PIECES = 6 — the claim (and the spec)
is the evident intent and the code a slip introduced with the explicit
1-based discriminants. -/
theorem c1_into_index_king_out_of_bounds :
    Piece.into_index .king = 6 ∧ ¬ Piece.into_index .king < NUM_PIECES := by
  constructor
  · rfl
  · decide

/-- C2: the claim states `decode(encode(m)) = m` for every move.  On the
source this fails for every move carrying a promotion: `encode` writes
`discriminant + 1` (2…7 since the discriminants are 1-based) while
`decode` reads 1…6, so each promotion piece shifts by one; at the
concrete move (a1, a1, Some(Queen)) the round trip returns
(a1, a1, Some(King)).  The repository's own test `encoding_decoding`
(src/chess_move.rs lines 527-538) asserts the round trip and therefore
fails: the code contradicts its own test. -/
theorem c2_roundtrip_fails_on_queen_promotion :
    ChessMove.decode (ChessMove.encode ⟨0, 0, some .queen⟩) = ⟨0, 0, some .king⟩ ∧
      ChessMove.decode (ChessMove.encode ⟨0, 0, some .queen⟩) ≠ ⟨0, 0, some .queen⟩ := by
  constructor
  · rfl
  · decide

theorem testBit_fromSquare (s i : Nat) :
    (fromSquare s).testBit i = decide (s = i) := by
  unfold fromSquare
  rw [Nat.shiftLeft_eq, one_mul, Nat.testBit_two_pow]

theorem and_fromSquare_eq_zero (x s : Nat) :
    x &&& fromSquare s = 0 ↔ x.testBit s = false := by
  constructor
  · intro h
    have h1 := congrArg (fun t => t.testBit s) h
    simpa [Nat.testBit_and, testBit_fromSquare] using h1
  · intro h
    apply Nat.eq_of_testBit_eq
    intro i
    rw [Nat.testBit_and, testBit_fromSquare, Nat.zero_testBit]
    by_cases hsi : s = i
    · subst hsi; simp [h]
    · simp [hsi]

theorem and_fromSquare_ne_zero (x s : Nat) :
    x &&& fromSquare s ≠ 0 ↔ x.testBit s = true := by
  rw [Ne, and_fromSquare_eq_zero]
  cases h : x.testBit s <;> simp

/-- update_pin_info reads only the piece bitboards, the color
occupancies, the combined occupancy and the side to move; boards that
agree on those get the same recomputed pin information. -/
theorem updatePinInfo_congr (b1 b2 : Board)
    (hp : b1.pieces = b2.pieces)
    (hcc : b1.color_combined = b2.color_combined)
    (hc : b1.combined = b2.combined)
    (hs : b1.side_to_move = b2.side_to_move) :
    (updatePinInfo b1).pinned = (updatePinInfo b2).pinned ∧
      (updatePinInfo b1).checkers = (updatePinInfo b2).checkers := by
  unfold updatePinInfo kingSquare piecesWithColor
  rw [hp, hcc, hc, hs]
  exact ⟨rfl, rfl⟩

/-- C4: the status dispatch of Board::status, for any legal-move
existence oracle in place of MoveGen::has_legals (spec §4.4: has_legals
returns true exactly when the legal generator emits at least one
move): Checkmate iff no legal move and in check, Stalemate iff no
legal move and not in check, Ongoing otherwise. -/
theorem c4_status_dispatch (hl : Board → Bool) (b : Board) :
    (statusWith hl b = .checkmate ↔ (hl b = false ∧ b.checkers ≠ 0)) ∧
      (statusWith hl b = .stalemate ↔ (hl b = false ∧ b.checkers = 0)) ∧
      (statusWith hl b = .ongoing ↔ hl b = true) := by
  unfold statusWith
  cases h : hl b <;> by_cases hc : b.checkers = 0 <;> simp [h, hc]

/-- C5: null_move returns None exactly when the side to move is in
check; otherwise it returns a board with the side to move toggled and
the en-passant square erased, every other stored field (piece
bitboards, color occupancies, combined occupancy, castle rights, base
hash) unchanged, and pinned and checkers equal to a from-scratch
update_pin_info recomputation on the resulting board. -/
theorem c5_null_move (b : Board) :
    (nullMove b = none ↔ b.checkers ≠ 0) ∧
      (b.checkers = 0 → ∃ r, nullMove b = some r ∧
        r.side_to_move = b.side_to_move.not ∧
        r.en_passant = none ∧
        r.pieces = b.pieces ∧
        r.color_combined = b.color_combined ∧
        r.combined = b.combined ∧
        r.castle_rights = b.castle_rights ∧
        r.hash = b.hash ∧
        r.pinned = (updatePinInfo r).pinned ∧
        r.checkers = (updatePinInfo r).checkers) := by
  constructor
  · unfold nullMove
    by_cases hc : b.checkers = 0
    · simp [hc]
    · simp [hc]
  · intro hc
    refine ⟨updatePinInfo
      { b with side_to_move := b.side_to_move.not, en_passant := none },
      ?_, rfl, rfl, rfl, rfl, rfl, rfl, rfl, ?_, ?_⟩
    · unfold nullMove
      simp [hc]
    · exact (updatePinInfo_congr _ _ rfl rfl rfl rfl).1
    · exact (updatePinInfo_congr _ _ rfl rfl rfl rfl).2

/-- Witness for C5 at the empty board of Board::new. -/
theorem c5_null_move_witness :
    (nullMove boardNew = none ↔ boardNew.checkers ≠ 0) ∧
      (∃ r, nullMove boardNew = some r ∧
        r.side_to_move = boardNew.side_to_move.not ∧
        r.en_passant = none ∧
        r.pieces = boardNew.pieces ∧
        r.color_combined = boardNew.color_combined ∧
        r.combined = boardNew.combined ∧
        r.castle_rights = boardNew.castle_rights ∧
        r.hash = boardNew.hash ∧
        r.pinned = (updatePinInfo r).pinned ∧
        r.checkers = (updatePinInfo r).checkers) :=
  ⟨(c5_null_move boardNew).1, (c5_null_move boardNew).2 rfl⟩

/-- C6, counterexample: a board that is_sane accepts although its
en-passant square holds the enemy pawn on the wrong rank: is_sane only
checks that the en-passant square holds a pawn of the side not to move
and never inspects its rank (src/board.rs lines 663-672). -/
theorem c6_counterexample :
    isSane c6board = true ∧ c6ClaimProp c6board = false := by
  constructor
  · decide
  · decide

/-- C6, amended: if is_sane accepts a board whose en-passant square is
set then that square holds a pawn of the side not to move (the rank
condition of the original claim is not checked by the code). -/
theorem c6_amended_ep_pawn (b : Board) (s : Nat)
    (hs : isSane b = true) (he : b.en_passant = some s) :
    b.pieces .pawn &&& b.color_combined b.side_to_move.not &&& fromSquare s ≠ 0 := by
  unfold isSane at hs
  rw [he] at hs
  simp only [Bool.and_eq_true, Bool.not_eq_true', beq_eq_false_iff_ne, ne_eq] at hs
  exact hs.1.1.1.2

/-- Witness for C6 amended, at the same concrete sane board. -/
theorem c6_amended_ep_pawn_witness :
    c6board.pieces .pawn &&& c6board.color_combined c6board.side_to_move.not &&&
      fromSquare 16 ≠ 0 :=
  c6_amended_ep_pawn c6board 16 (by decide) rfl

/-- The branch-eliminated classifier returns the piece whose bitboard
holds the square, whenever exactly one piece bitboard does. -/
theorem pieceOnUnchecked_eq (b : Board) (s : Nat) (p : Piece)
    (hbit : (b.pieces p).testBit s = true)
    (hothers : ∀ q, q ≠ p → (b.pieces q).testBit s = false) :
    pieceOnUnchecked b s = p := by
  cases p with
  | pawn =>
    simp [pieceOnUnchecked, and_fromSquare_ne_zero, Nat.testBit_xor, hbit,
      hothers .knight (by decide), hothers .bishop (by decide)]
  | knight =>
    simp [pieceOnUnchecked, and_fromSquare_ne_zero, Nat.testBit_xor, hbit,
      hothers .pawn (by decide), hothers .bishop (by decide)]
  | bishop =>
    simp [pieceOnUnchecked, and_fromSquare_ne_zero, Nat.testBit_xor, hbit,
      hothers .pawn (by decide), hothers .knight (by decide)]
  | rook =>
    simp [pieceOnUnchecked, and_fromSquare_ne_zero, Nat.testBit_xor, hbit,
      hothers .pawn (by decide), hothers .knight (by decide),
      hothers .bishop (by decide)]
  | queen =>
    simp [pieceOnUnchecked, and_fromSquare_ne_zero, Nat.testBit_xor, hbit,
      hothers .pawn (by decide), hothers .knight (by decide),
      hothers .bishop (by decide), hothers .rook (by decide)]
  | king =>
    simp [pieceOnUnchecked, and_fromSquare_ne_zero, Nat.testBit_xor,
      hothers .pawn (by decide), hothers .knight (by decide),
      hothers .bishop (by decide), hothers .rook (by decide),
      hothers .queen (by decide)]

/-- C10: on a board whose per-piece bitboards are pairwise disjoint and
whose combined bitboard is their union, piece_on returns None exactly
on unoccupied squares and Some(p) exactly on the squares of the piece-p
bitboard; in particular the branch-elimination of piece_on_unchecked
never misclassifies an occupied square. -/
theorem c10_piece_on (b : Board) (s : Nat)
    (hd : ∀ p q : Piece, p ≠ q → b.pieces p &&& b.pieces q = 0)
    (hc : b.combined = b.pieces .pawn ||| b.pieces .knight ||| b.pieces .bishop |||
        b.pieces .rook ||| b.pieces .queen ||| b.pieces .king) :
    (pieceOn b s = none ↔ b.combined.testBit s = false) ∧
      (∀ p : Piece, pieceOn b s = some p ↔ (b.pieces p).testBit s = true) := by
  have pairwise : ∀ p q : Piece, p ≠ q →
      ¬((b.pieces p).testBit s = true ∧ (b.pieces q).testBit s = true) := by
    intro p q hpq h
    have h0 := congrArg (fun t => t.testBit s) (hd p q hpq)
    simp only [Nat.testBit_and, h.1, h.2, Nat.zero_testBit, Bool.and_self] at h0
    exact Bool.noConfusion h0
  have hcomb : b.combined.testBit s =
      ((b.pieces .pawn).testBit s || (b.pieces .knight).testBit s ||
        (b.pieces .bishop).testBit s || (b.pieces .rook).testBit s ||
        (b.pieces .queen).testBit s || (b.pieces .king).testBit s) := by
    rw [hc]; simp [Nat.testBit_or]
  by_cases hocc : b.combined &&& fromSquare s = 0
  · have hfalse : b.combined.testBit s = false := (and_fromSquare_eq_zero _ _).mp hocc
    have hall : ∀ p : Piece, (b.pieces p).testBit s = false := by
      rw [hfalse] at hcomb
      intro p
      cases p <;> simp_all
    constructor
    · simp [pieceOn, hocc, hfalse]
    · intro p
      simp [pieceOn, hocc, hall p]
  · have htrue : b.combined.testBit s = true := (and_fromSquare_ne_zero _ _).mp hocc
    have hsome : ∃ q : Piece, (b.pieces q).testBit s = true := by
      rw [htrue] at hcomb
      have hcomb2 := hcomb.symm
      simp only [Bool.or_eq_true] at hcomb2
      rcases hcomb2 with ((((h | h) | h) | h) | h) | h
      · exact ⟨.pawn, h⟩
      · exact ⟨.knight, h⟩
      · exact ⟨.bishop, h⟩
      · exact ⟨.rook, h⟩
      · exact ⟨.queen, h⟩
      · exact ⟨.king, h⟩
    obtain ⟨q, hq⟩ := hsome
    have hothers : ∀ r : Piece, r ≠ q → (b.pieces r).testBit s = false := by
      intro r hr
      cases h : (b.pieces r).testBit s
      · rfl
      · exact absurd ⟨h, hq⟩ (pairwise r q hr)
    have hunch : pieceOnUnchecked b s = q := pieceOnUnchecked_eq b s q hq hothers
    constructor
    · simp [pieceOn, hocc, htrue]
    · intro p
      by_cases hpq : p = q
      · subst hpq
        simp [pieceOn, hocc, hunch, hq]
      · have : (b.pieces p).testBit s = false := hothers p hpq
        simp [pieceOn, hocc, hunch, this, Ne.symm hpq]

/-- Witness for C10: on the concrete board c6board (disjoint piece
bitboards, combined equal to their union) square e1 is classified as
the king. -/
theorem c10_piece_on_witness :
    pieceOn c6board 4 = some Piece.king ↔ (c6board.pieces .king).testBit 4 = true :=
  (c10_piece_on c6board 4 (by decide) (by decide)).2 .king

theorem foldl_xor_acc (f : Nat → Nat) (l : List Nat) (a : Nat) :
    l.foldl (fun x sq => x ^^^ f sq) a = a ^^^ l.foldl (fun x sq => x ^^^ f sq) 0 := by
  induction l generalizing a with
  | nil => simp
  | cons hd tl ih =>
    simp only [List.foldl_cons]
    rw [ih (a ^^^ f hd), ih (0 ^^^ f hd)]
    simp [Nat.xor_assoc]

theorem xorFold_filter_disjoint (f : Nat → Nat) (p q : Nat → Bool) (l : List Nat)
    (hdisj : ∀ i, p i = true → q i = true → False) :
    (l.filter fun i => p i || q i).foldl (fun x sq => x ^^^ f sq) 0
      = (l.filter p).foldl (fun x sq => x ^^^ f sq) 0 ^^^
        (l.filter q).foldl (fun x sq => x ^^^ f sq) 0 := by
  induction l with
  | nil => simp
  | cons hd tl ih =>
    by_cases hp : p hd = true
    · have hq : q hd = false := by
        cases h : q hd
        · rfl
        · exact absurd (hdisj hd hp h) not_false
      simp only [List.filter_cons, hp, hq, Bool.or_false, if_true, List.foldl_cons]
      rw [foldl_xor_acc _ _ (0 ^^^ f hd), foldl_xor_acc _ (l := tl.filter p) (0 ^^^ f hd), ih]
      simp [Nat.xor_assoc]
    · have hp0 : p hd = false := by cases h : p hd; rfl; exact absurd h hp
      by_cases hq : q hd = true
      · have hfp : List.filter p (hd :: tl) = List.filter p tl := by
          simp [List.filter_cons, hp0]
        have hfq : List.filter q (hd :: tl) = hd :: List.filter q tl := by
          simp [List.filter_cons, hq]
        have hfor : List.filter (fun i => p i || q i) (hd :: tl)
            = hd :: List.filter (fun i => p i || q i) tl := by
          simp [List.filter_cons, hp0, hq]
        rw [hfor, hfp, hfq, List.foldl_cons, List.foldl_cons,
          foldl_xor_acc _ _ (0 ^^^ f hd), foldl_xor_acc _ (l := tl.filter q) (0 ^^^ f hd), ih]
        simp only [Nat.zero_xor]
        rw [← Nat.xor_assoc,
          Nat.xor_comm (f hd) (List.foldl (fun x sq => x ^^^ f sq) 0 (tl.filter p)),
          Nat.xor_assoc]
      · have hq0 : q hd = false := by cases h : q hd; rfl; exact absurd h hq
        have hfp : List.filter p (hd :: tl) = List.filter p tl := by
          simp [List.filter_cons, hp0]
        have hfq : List.filter q (hd :: tl) = List.filter q tl := by
          simp [List.filter_cons, hq0]
        have hfor : List.filter (fun i => p i || q i) (hd :: tl)
            = List.filter (fun i => p i || q i) tl := by
          simp [List.filter_cons, hp0, hq0]
        rw [hfor, hfp, hfq]
        exact ih

/-- C7, counterexample: on a concrete board with a black pawn, the
implemented pawn hash differs from the claimed formula, because the
source keys the black pawns with Color::White
(src/board.rs line 741). -/
theorem c7_counterexample :
    getPawnHash c7board ≠ pawnHashClaimed c7board := by decide

/-- C7, amended: on any board whose color occupancies are disjoint, the
pawn hash is the XOR over every pawn of either color of the Zobrist key
for (Pawn, square, White) — black pawns included — plus the
side-to-move key, and the pawn-king hash adds the two kings' keys with
their true colors. -/
theorem c7_amended_pawn_hash (b : Board)
    (hdisj : b.color_combined .white &&& b.color_combined .black = 0) :
    getPawnHash b = pawnHashAmended b ∧
      getPawnKingHash b = pawnHashAmended b
        ^^^ zobristPiece .king (kingSquare b .white) .white
        ^^^ zobristPiece .king (kingSquare b .black) .black := by
  have hbits : ∀ i, (b.color_combined .white).testBit i = true →
      (b.color_combined .black).testBit i = true → False := by
    intro i h1 h2
    have h0 := congrArg (fun t => t.testBit i) hdisj
    simp only [Nat.testBit_and, h1, h2, Nat.zero_testBit, Bool.and_self] at h0
    exact Bool.noConfusion h0
  have key : getPawnHash b = pawnHashAmended b := by
    unfold getPawnHash pawnHashAmended piecesWithColor bbSquares
    have hsplit :
        (List.range 64).filter
            (fun i => (b.pieces .pawn &&&
              (b.color_combined .white ||| b.color_combined .black)).testBit i)
          = (List.range 64).filter
              (fun i => (b.pieces .pawn &&& b.color_combined .white).testBit i ||
                (b.pieces .pawn &&& b.color_combined .black).testBit i) := by
      apply List.filter_congr
      intro i _
      simp only [Nat.testBit_and, Nat.testBit_or, Bool.and_or_distrib_left]
    rw [hsplit, xorFold_filter_disjoint]
    · rw [Nat.xor_assoc]
    · intro i h1 h2
      simp only [Nat.testBit_and, Bool.and_eq_true] at h1 h2
      exact hbits i h1.2 h2.2
  exact ⟨key, by unfold getPawnKingHash; rw [key]⟩

/-- Witness for C7 amended at the concrete two-pawn board. -/
theorem c7_amended_pawn_hash_witness :
    getPawnHash c7board = pawnHashAmended c7board ∧
      getPawnKingHash c7board = pawnHashAmended c7board
        ^^^ zobristPiece .king (kingSquare c7board .white) .white
        ^^^ zobristPiece .king (kingSquare c7board .black) .black :=
  c7_amended_pawn_hash c7board (by decide)

theorem squareFromStr_isSome (x y : Char) (t : List Char) :
    (squareFromStr (x :: y :: t)).isSome = (isFileChar x && isRankChar y) := by
  unfold squareFromStr isFileChar isRankChar
  cases hf : fileOfChar x <;> cases hr : rankOfChar y <;> simp [hf, hr]

/-- C8, counterexample: the six-character string e2e4xx is accepted by
ChessMove::from_str (the promotion branch only runs when the length is
exactly 5, so trailing garbage is ignored), although it does not match
the claimed language [a-h][1-8][a-h][1-8][qrbn]?. -/
theorem c8_counterexample :
    (uciFromStr ['e', '2', 'e', '4', 'x', 'x']).isSome = true ∧
      matchesUci ['e', '2', 'e', '4', 'x', 'x'] = false := by
  constructor
  · rfl
  · rfl

/-- C8, amended: the parser accepts exactly the strings of at least
four characters whose first four match [a-h][1-8][a-h][1-8] and whose
fifth character, when the length is exactly five, is one of qrbn;
longer tails are accepted and ignored (and on the accepted language of
the original claim the two agree).  The parser itself is total, hence
never panics. -/
theorem c8_amended_uci_accepts (l : List Char) :
    (uciFromStr l).isSome = uciAccepted l := by
  match l with
  | [] => rfl
  | [a] =>
    unfold uciFromStr uciAccepted
    cases hf : fileOfChar a <;> simp [squareFromStr, hf]
  | [a, b] =>
    unfold uciFromStr uciAccepted
    cases hsq : squareFromStr [a, b] <;> simp [hsq]
  | [a, b, c] =>
    unfold uciFromStr uciAccepted
    cases hsq : squareFromStr ([a, b, c].take 2) <;> simp [hsq]
  | a :: b :: c :: d :: rest =>
    have htake : (a :: b :: c :: d :: rest).take 2 = [a, b] := rfl
    have hdrop : ((a :: b :: c :: d :: rest).drop 2).take 2 = [c, d] := rfl
    unfold uciFromStr
    rw [htake, hdrop]
    cases hsrc : squareFromStr [a, b] with
    | none =>
      have h1 : (isFileChar a && isRankChar b) = false := by
        rw [← squareFromStr_isSome a b []]
        exact hsrc ▸ rfl
      unfold uciAccepted
      rcases Bool.and_eq_false_iff.mp h1 with h | h <;> simp [h]
    | some u =>
      have h1 : (isFileChar a && isRankChar b) = true := by
        rw [← squareFromStr_isSome a b []]
        exact hsrc ▸ rfl
      have hlen : ¬ (a :: b :: c :: d :: rest).length < 4 := by
        simp only [List.length_cons]
        omega
      dsimp only
      rw [if_neg hlen]
      cases hdst : squareFromStr [c, d] with
      | none =>
        have h2 : (isFileChar c && isRankChar d) = false := by
          rw [← squareFromStr_isSome c d []]
          exact hdst ▸ rfl
        unfold uciAccepted
        rcases Bool.and_eq_false_iff.mp h2 with h | h <;>
          simp [h, Bool.and_eq_true_iff.mp h1]
      | some v =>
        have h2 : (isFileChar c && isRankChar d) = true := by
          rw [← squareFromStr_isSome c d []]
          exact hdst ▸ rfl
        dsimp only
        match rest with
        | [] =>
          have h5 : ¬ ([a, b, c, d] : List Char).length = 5 := by simp
          rw [if_neg h5]
          unfold uciAccepted
          simp [Bool.and_eq_true_iff.mp h1, Bool.and_eq_true_iff.mp h2]
        | [e] =>
          have h5 : ([a, b, c, d, e] : List Char).length = 5 := by simp
          rw [if_pos h5]
          have hlast : ([a, b, c, d, e] : List Char).getLast? = some e := rfl
          rw [hlast]
          unfold uciAccepted isPromoChar
          obtain ⟨h1a, h1b⟩ := Bool.and_eq_true_iff.mp h1
          obtain ⟨h2a, h2b⟩ := Bool.and_eq_true_iff.mp h2
          by_cases hq : e = 'q'
          · simp [hq, h1a, h1b, h2a, h2b]
          · by_cases hr : e = 'r'
            · simp [hq, hr, h1a, h1b, h2a, h2b]
            · by_cases hn : e = 'n'
              · simp [hq, hr, hn, h1a, h1b, h2a, h2b]
              · by_cases hb2 : e = 'b'
                · simp [hq, hr, hn, hb2, h1a, h1b, h2a, h2b]
                · simp [hq, hr, hn, hb2, h1a, h1b, h2a, h2b]
        | e :: f :: rest2 =>
          have h5 : ¬ (a :: b :: c :: d :: e :: f :: rest2).length = 5 := by
            simp only [List.length_cons]
            omega
          rw [if_neg h5]
          unfold uciAccepted
          simp [Bool.and_eq_true_iff.mp h1, Bool.and_eq_true_iff.mp h2]

theorem diagPred_symm (a b : Nat) : diagPred a b = diagPred b a := by
  unfold diagPred
  rw [Bool.eq_iff_iff]
  simp only [decide_eq_true_eq]
  omega

theorem rookRayPred_symm (a b : Nat) : rookRayPred a b = rookRayPred b a := by
  unfold rookRayPred
  rw [Bool.eq_iff_iff]
  simp only [Bool.and_eq_true, Bool.or_eq_true, decide_eq_true_eq, ne_eq]
  omega

theorem bishopRayPred_symm (a b : Nat) : bishopRayPred a b = bishopRayPred b a := by
  unfold bishopRayPred
  rw [Bool.eq_iff_iff]
  simp only [Bool.and_eq_true, decide_eq_true_eq, ne_eq]
  omega

theorem betweenPred_symm (a b t : Nat) : betweenPred a b t = betweenPred b a t := by
  unfold betweenPred openBetween diagPred
  congr 1
  · rw [Bool.eq_iff_iff]
    simp only [decide_eq_true_eq, ne_eq]
    omega
  · congr 1
    · congr 1
      · rw [Bool.eq_iff_iff]
        simp only [Bool.and_eq_true, Bool.or_eq_true, decide_eq_true_eq]
        omega
      · rw [Bool.eq_iff_iff]
        simp only [Bool.and_eq_true, Bool.or_eq_true, decide_eq_true_eq]
        omega
    · rw [Bool.eq_iff_iff]
      simp only [Bool.and_eq_true, Bool.or_eq_true, decide_eq_true_eq]
      omega

theorem between_symm (a b : Nat) : between a b = between b a := by
  unfold between
  apply Nat.eq_of_testBit_eq
  intro i
  rw [testBit_bbOfPred, testBit_bbOfPred, betweenPred_symm]

/-- Visibility along rook lines is symmetric: the king sees a slider
square under an occupancy exactly when a rook on that square would see
the king. -/
theorem rookMoves_testBit_symm (k q occ : Nat) (hk : k < 64) (hq : q < 64) :
    (rookMoves k occ).testBit q = (rookMoves q occ).testBit k := by
  unfold rookMoves sliderPred
  rw [testBit_bbOfPred, testBit_bbOfPred, rookRayPred_symm, between_symm]
  simp [hk, hq]

/-- Visibility along bishop diagonals is symmetric. -/
theorem bishopMoves_testBit_symm (k q occ : Nat) (hk : k < 64) (hq : q < 64) :
    (bishopMoves k occ).testBit q = (bishopMoves q occ).testBit k := by
  unfold bishopMoves sliderPred
  rw [testBit_bbOfPred, testBit_bbOfPred, bishopRayPred_symm, between_symm]
  simp [hk, hq]

theorem and_ne_zero_iff (x y : Nat) :
    x &&& y ≠ 0 ↔ ∃ i, x.testBit i = true ∧ y.testBit i = true := by
  constructor
  · intro h
    obtain ⟨i, hi⟩ := Nat.ne_zero_implies_bit_true h
    rw [Nat.testBit_and, Bool.and_eq_true] at hi
    exact ⟨i, hi⟩
  · rintro ⟨i, h1, h2⟩ h0
    have := congrArg (fun t => t.testBit i) h0
    simp only [Nat.testBit_and, h1, h2, Nat.zero_testBit, Bool.and_self] at this
    exact Bool.noConfusion this

theorem testBit_of_ge_64 {x : Nat} (hx : x < 2 ^ 64) {i : Nat} (hi : 64 ≤ i) :
    x.testBit i = false :=
  Nat.testBit_lt_two_pow (lt_of_lt_of_le hx (Nat.pow_le_pow_right (by norm_num) hi))

/-- The destination of a wrapping forward step is always a board
square. -/
theorem uforward_lt (c : Color) (s : Nat) : uforward c s < 64 := by
  cases c <;> simp only [uforward, makeSquare, rankOf, fileOf] <;> omega

/-- The XOR-combination of the three affected squares performed by
legal_ep_move equals the occupancy described by the spec: the combined
occupancy with the two pawn squares removed and the destination added. -/
theorem xor_removeAdd (occ e s d : Nat) (hocc : occ < 2 ^ 64)
    (he64 : e < 64) (hs64 : s < 64) (hd64 : d < 64)
    (hbe : occ.testBit e = true) (hbs : occ.testBit s = true)
    (hbd : occ.testBit d = false) (hes : e ≠ s) :
    occ ^^^ fromSquare e ^^^ fromSquare s ^^^ fromSquare d = removeAdd occ e s d := by
  have hde : d ≠ e := fun h => by rw [h, hbe] at hbd; exact Bool.noConfusion hbd
  have hds : d ≠ s := fun h => by rw [h, hbs] at hbd; exact Bool.noConfusion hbd
  apply Nat.eq_of_testBit_eq
  intro i
  rw [Nat.testBit_xor, Nat.testBit_xor, Nat.testBit_xor, testBit_fromSquare,
    testBit_fromSquare, testBit_fromSquare]
  unfold removeAdd
  rw [testBit_bbOfPred]
  by_cases hi : i < 64
  · by_cases hie : e = i
    · subst hie
      simp [hbe, hi, hes, Ne.symm hes, hde, Ne.symm hde]
    · by_cases his : s = i
      · subst his
        simp [hbs, hi, hie, Ne.symm hie, hds, Ne.symm hds]
      · by_cases hid : d = i
        · subst hid
          simp [hbd, hi, hie, his, Ne.symm hie, Ne.symm his]
        · simp [hi, hie, his, hid, Ne.symm hie, Ne.symm his, Ne.symm hid]
  · have h64 : (64 : Nat) ≤ i := by omega
    have hxe : e ≠ i := by omega
    have hxs : s ≠ i := by omega
    have hxd : d ≠ i := by omega
    simp [testBit_of_ge_64 hocc h64, hi, hxe, hxs, hxd]

/-- Characterization of legal_ep_move as the conjunction of the two
slider-safety conditions of the source. -/
theorem legalEpMove_iff (b : Board) (source dest e : Nat)
    (hep : b.en_passant = some e) :
    legalEpMove b source dest = true ↔
      (¬((rookRays (kingSquare b b.side_to_move) &&&
            ((b.pieces .rook ||| b.pieces .queen) &&&
              b.color_combined b.side_to_move.not)) ≠ 0 ∧
          (rookMoves (kingSquare b b.side_to_move)
              (b.combined ^^^ fromSquare e ^^^ fromSquare source ^^^ fromSquare dest) &&&
            ((b.pieces .rook ||| b.pieces .queen) &&&
              b.color_combined b.side_to_move.not)) ≠ 0) ∧
        ¬((bishopRays (kingSquare b b.side_to_move) &&&
            ((b.pieces .bishop ||| b.pieces .queen) &&&
              b.color_combined b.side_to_move.not)) ≠ 0 ∧
          (bishopMoves (kingSquare b b.side_to_move)
              (b.combined ^^^ fromSquare e ^^^ fromSquare source ^^^ fromSquare dest) &&&
            ((b.pieces .bishop ||| b.pieces .queen) &&&
              b.color_combined b.side_to_move.not)) ≠ 0)) := by
  unfold legalEpMove
  rw [hep]
  dsimp only
  split_ifs with h1 h2
  · simp only [Bool.and_eq_true, decide_eq_true_eq] at h1
    simp [h1]
  · simp only [Bool.and_eq_true, decide_eq_true_eq] at h2
    simp [h2]
  · simp only [Bool.and_eq_true, decide_eq_true_eq, not_and] at h1 h2
    constructor
    · intro _
      constructor
      · intro hcon
        exact (h1 hcon.1) hcon.2
      · intro hcon
        exact (h2 hcon.1) hcon.2
    · intro _
      rfl

/-- No enemy rook-like slider sees the king: the code's test (attacks
computed from the king square) is equivalent to quantifying over the
attacking sliders. -/
theorem rook_no_sees_iff (ksq occ2 sliders : Nat) (hk64 : ksq < 64)
    (hhigh : ∀ q, 64 ≤ q → sliders.testBit q = false) :
    ¬((rookRays ksq &&& sliders) ≠ 0 ∧ (rookMoves ksq occ2 &&& sliders) ≠ 0) ↔
      ∀ q, sliders.testBit q = true → (rookMoves q occ2).testBit ksq = false := by
  have hsub : ∀ i, (rookMoves ksq occ2).testBit i = true →
      (rookRays ksq).testBit i = true := by
    intro i h
    unfold rookMoves sliderPred at h
    rw [testBit_bbOfPred] at h
    unfold rookRays
    rw [testBit_bbOfPred]
    simp only [Bool.and_eq_true] at h ⊢
    exact ⟨h.1, h.2.1⟩
  constructor
  · intro h q hq
    by_contra hcon
    have hqT : (rookMoves q occ2).testBit ksq = true := by
      cases hx : (rookMoves q occ2).testBit ksq
      · exact absurd hx hcon
      · rfl
    have hq64 : q < 64 := by
      by_contra hq64
      rw [hhigh q (by omega)] at hq
      exact Bool.noConfusion hq
    have hsym : (rookMoves ksq occ2).testBit q = true := by
      rw [rookMoves_testBit_symm ksq q occ2 hk64 hq64]
      exact hqT
    exact h ⟨(and_ne_zero_iff _ _).mpr ⟨q, hsub q hsym, hq⟩,
      (and_ne_zero_iff _ _).mpr ⟨q, hsym, hq⟩⟩
  · rintro h ⟨h1, h2⟩
    obtain ⟨i, hm, hsld⟩ := (and_ne_zero_iff _ _).mp h2
    have hi64 : i < 64 := by
      by_contra hbad
      have hz : (rookMoves ksq occ2).testBit i = false := by
        unfold rookMoves
        rw [testBit_bbOfPred]
        simp [show ¬ i < 64 by omega]
      rw [hz] at hm
      exact Bool.noConfusion hm
    have hqf := h i hsld
    rw [← rookMoves_testBit_symm ksq i occ2 hk64 hi64, hm] at hqf
    exact Bool.noConfusion hqf

/-- The bishop analogue of rook_no_sees_iff. -/
theorem bishop_no_sees_iff (ksq occ2 sliders : Nat) (hk64 : ksq < 64)
    (hhigh : ∀ q, 64 ≤ q → sliders.testBit q = false) :
    ¬((bishopRays ksq &&& sliders) ≠ 0 ∧ (bishopMoves ksq occ2 &&& sliders) ≠ 0) ↔
      ∀ q, sliders.testBit q = true → (bishopMoves q occ2).testBit ksq = false := by
  have hsub : ∀ i, (bishopMoves ksq occ2).testBit i = true →
      (bishopRays ksq).testBit i = true := by
    intro i h
    unfold bishopMoves sliderPred at h
    rw [testBit_bbOfPred] at h
    unfold bishopRays
    rw [testBit_bbOfPred]
    simp only [Bool.and_eq_true] at h ⊢
    exact ⟨h.1, h.2.1⟩
  constructor
  · intro h q hq
    by_contra hcon
    have hqT : (bishopMoves q occ2).testBit ksq = true := by
      cases hx : (bishopMoves q occ2).testBit ksq
      · exact absurd hx hcon
      · rfl
    have hq64 : q < 64 := by
      by_contra hq64
      rw [hhigh q (by omega)] at hq
      exact Bool.noConfusion hq
    have hsym : (bishopMoves ksq occ2).testBit q = true := by
      rw [bishopMoves_testBit_symm ksq q occ2 hk64 hq64]
      exact hqT
    exact h ⟨(and_ne_zero_iff _ _).mpr ⟨q, hsub q hsym, hq⟩,
      (and_ne_zero_iff _ _).mpr ⟨q, hsym, hq⟩⟩
  · rintro h ⟨h1, h2⟩
    obtain ⟨i, hm, hsld⟩ := (and_ne_zero_iff _ _).mp h2
    have hi64 : i < 64 := by
      by_contra hbad
      have hz : (bishopMoves ksq occ2).testBit i = false := by
        unfold bishopMoves
        rw [testBit_bbOfPred]
        simp [show ¬ i < 64 by omega]
      rw [hz] at hm
      exact Bool.noConfusion hm
    have hqf := h i hsld
    rw [← bishopMoves_testBit_symm ksq i occ2 hk64 hi64, hm] at hqf
    exact Bool.noConfusion hqf

/-- C9: for a position with en-passant square e and a friendly pawn s
on the same rank and an adjacent file, the generator emits the
en-passant capture to the square d one step toward the mover exactly
when, in the occupancy obtained from combined by removing e and s and
adding d, no enemy rook or queen and no enemy bishop or queen attacks
the friendly king along its ray. -/
theorem c9_ep_capture (b : Board) (e s : Nat)
    (hep : b.en_passant = some e)
    (hrank : rankOf s = rankOf e)
    (hfile : ((fileOf s : Int) - fileOf e).natAbs = 1)
    (hpawn : (b.pieces .pawn &&& b.color_combined b.side_to_move).testBit s = true)
    (he64 : e < 64) (hs64 : s < 64)
    (hocc64 : b.combined < 2 ^ 64)
    (hpieces64 : ∀ p : Piece, b.pieces p < 2 ^ 64)
    (hbe : b.combined.testBit e = true)
    (hbs : b.combined.testBit s = true)
    (hbd : b.combined.testBit (uforward b.side_to_move e) = false)
    (hk64 : kingSquare b b.side_to_move < 64) :
    epEmitted b s = true ↔
      ((∀ q, ((b.pieces .rook ||| b.pieces .queen) &&&
            b.color_combined b.side_to_move.not).testBit q = true →
          (rookMoves q (removeAdd b.combined e s (uforward b.side_to_move e))).testBit
            (kingSquare b b.side_to_move) = false) ∧
        (∀ q, ((b.pieces .bishop ||| b.pieces .queen) &&&
            b.color_combined b.side_to_move.not).testBit q = true →
          (bishopMoves q (removeAdd b.combined e s (uforward b.side_to_move e))).testBit
            (kingSquare b b.side_to_move) = false)) := by
  have hes : e ≠ s := by
    intro h
    rw [h] at hfile
    omega
  have hd64 : uforward b.side_to_move e < 64 := uforward_lt _ _
  have hoccEq := xor_removeAdd b.combined e s (uforward b.side_to_move e)
    hocc64 he64 hs64 hd64 hbe hbs hbd hes
  have hmask : (epSourceMask b e).testBit s = true := by
    unfold epSourceMask rankBB adjacentFiles
    rw [Nat.testBit_and, Nat.testBit_and, testBit_bbOfPred, testBit_bbOfPred]
    simp [hs64, hrank, hfile, hpawn]
  have hun : epEmitted b s = legalEpMove b s (uforward b.side_to_move e) := by
    unfold epEmitted
    rw [hep]
    dsimp only
    rw [hmask]
    simp
  have hhighR : ∀ q, 64 ≤ q →
      (((b.pieces .rook ||| b.pieces .queen) &&&
        b.color_combined b.side_to_move.not)).testBit q = false := by
    intro q hq
    rw [Nat.testBit_and, Nat.testBit_or, testBit_of_ge_64 (hpieces64 .rook) hq,
      testBit_of_ge_64 (hpieces64 .queen) hq]
    rfl
  have hhighB : ∀ q, 64 ≤ q →
      (((b.pieces .bishop ||| b.pieces .queen) &&&
        b.color_combined b.side_to_move.not)).testBit q = false := by
    intro q hq
    rw [Nat.testBit_and, Nat.testBit_or, testBit_of_ge_64 (hpieces64 .bishop) hq,
      testBit_of_ge_64 (hpieces64 .queen) hq]
    rfl
  rw [hun, legalEpMove_iff b s (uforward b.side_to_move e) e hep, hoccEq,
    rook_no_sees_iff _ _ _ hk64 hhighR, bishop_no_sees_iff _ _ _ hk64 hhighB]

/-- Witness for C9: in the concrete double-push position the en-passant
capture f5xe6 is emitted (there are no enemy sliders, so the safety
conditions hold vacuously). -/
theorem c9_ep_capture_witness : epEmitted c9board 37 = true := by
  have hmain := c9_ep_capture c9board 36 37 rfl (by decide) (by decide) (by decide)
    (by decide) (by decide) (by decide) (fun p => by cases p <;> decide)
    (by decide) (by decide) (by decide) (by decide)
  refine hmain.mpr ⟨?_, ?_⟩
  · intro q hq
    have h0 : (c9board.pieces .rook ||| c9board.pieces .queen) &&&
        c9board.color_combined c9board.side_to_move.not = 0 := by decide
    rw [h0, Nat.zero_testBit] at hq
    exact Bool.noConfusion hq
  · intro q hq
    have h0 : (c9board.pieces .bishop ||| c9board.pieces .queen) &&&
        c9board.color_combined c9board.side_to_move.not = 0 := by decide
    rw [h0, Nat.zero_testBit] at hq
    exact Bool.noConfusion hq

end Chess
